import Mathlib

/-!
Verification of the workflow-indicator feature
(`source/features/github-actions-indicators.tsx`).

The development shallowly embeds the data model and the operations of the
source file: JavaScript plain objects used as string-keyed maps become
association lists with assignment (`objSet`) and lookup (`objGet`)
operations that mirror property assignment and property access; the
fetchers, the aggregation loop, the cron-capture regular expression and
the substring test are translated function by function.  The external
collaborators that the source only configures (the storage cache and the
cron projector) are modelled from the specification, as marked in their
doc comments.
-/

namespace GhaIndicators

/-! ## JavaScript objects as string-keyed maps

A JS plain object used as a `Record<string, T>` is modelled as an
association list in insertion order.  `objSet` models `o[k] = v`
(overwrite in place if the key exists, append otherwise) and `objGet`
models `o[k]` (first — and, since every object here is built only with
`objSet`, unique — binding, `none` for a missing key). -/

def objGet {α : Type} (m : List (String × α)) (k : String) : Option α :=
  (m.find? (fun p => p.1 == k)).map (fun p => p.2)

def objRepl {α : Type} (k : String) (v : α) (p : String × α) : String × α :=
  if p.1 == k then (k, v) else p

def objSet {α : Type} (m : List (String × α)) (k : String) (v : α) : List (String × α) :=
  if m.any (fun p => p.1 == k) then m.map (objRepl k v) else m ++ [(k, v)]

/-- Lookup of a `Record<string, string>` whose stored values may themselves be
`undefined` (modelled as `Option String` values): property access yields
`undefined` both for a missing key and for a key bound to `undefined`,
exactly as the `workflowFiles[workflow.name] === undefined` test sees it. -/
def recGet (m : List (String × Option String)) (k : String) : Option String :=
  (objGet m k).join

def keysOf {α : Type} (m : List (String × α)) : List String :=
  m.map (fun p => p.1)

theorem objSet_pos {α : Type} {m : List (String × α)} {k : String} (v : α)
    (h : m.any (fun p => p.1 == k) = true) : objSet m k v = m.map (objRepl k v) := by
  simp [objSet, h]

theorem objSet_neg {α : Type} {m : List (String × α)} {k : String} (v : α)
    (h : m.any (fun p => p.1 == k) = false) : objSet m k v = m ++ [(k, v)] := by
  simp [objSet, h]

theorem not_mem_keysOf_of_any_false {α : Type} {m : List (String × α)} {k : String}
    (h : m.any (fun p => p.1 == k) = false) : k ∉ keysOf m := by
  intro hmem
  rcases List.mem_map.mp hmem with ⟨p, hp, hpk⟩
  have := List.any_eq_false.mp h p hp
  simp [hpk] at this

theorem find?_map_objRepl_self {α : Type} (k : String) (v : α) :
    ∀ m : List (String × α), m.any (fun p => p.1 == k) = true →
      (m.map (objRepl k v)).find? (fun p => p.1 == k) = some (k, v) := by
  intro m
  induction m with
  | nil => simp
  | cons p m ih =>
    intro h
    by_cases hp : p.1 == k
    · simp [objRepl, hp, List.find?]
    · simp only [List.any_cons, hp, Bool.false_or] at h
      simp only [List.map_cons, List.find?, objRepl, hp, if_false]
      simpa [hp] using ih h

theorem find?_map_objRepl_other {α : Type} (k n : String) (v : α) (hn : n ≠ k) :
    ∀ m : List (String × α),
      (m.map (objRepl k v)).find? (fun p => p.1 == n) = m.find? (fun p => p.1 == n) := by
  intro m
  induction m with
  | nil => simp
  | cons p m ih =>
    by_cases hp : p.1 == k
    · have hpk : p.1 = k := by simpa using hp
      have hkn : (k == n) = false := by
        simp [beq_iff_eq]; exact fun h => hn h.symm
      simp [objRepl, hp, List.find?, hkn, hpk, ih]
    · simp only [List.map_cons, objRepl, hp, if_false]
      by_cases hpn : p.1 == n
      · simp [List.find?, hpn]
      · simp [List.find?, hpn, ih]

theorem objGet_objSet_self {α : Type} (m : List (String × α)) (k : String) (v : α) :
    objGet (objSet m k v) k = some v := by
  cases h : m.any (fun p => p.1 == k) with
  | true =>
    rw [objSet_pos v h]
    simp only [objGet, find?_map_objRepl_self k v m h, Option.map_some']
  | false =>
    rw [objSet_neg v h]
    have hnone : m.find? (fun p => p.1 == k) = none := by
      rw [List.find?_eq_none]
      intro p hp
      have := List.any_eq_false.mp h p hp
      simpa using this
    simp only [objGet]
    rw [List.find?_append, hnone]
    simp [List.find?]

theorem objGet_objSet_other {α : Type} (m : List (String × α)) (k n : String) (v : α)
    (hn : n ≠ k) : objGet (objSet m k v) n = objGet m n := by
  cases h : m.any (fun p => p.1 == k) with
  | true => rw [objSet_pos v h]; simp only [objGet, find?_map_objRepl_other k n v hn m]
  | false =>
    rw [objSet_neg v h]
    simp only [objGet]
    rw [List.find?_append]
    have hkn : (k == n) = false := by
      simp only [beq_eq_false_iff_ne, ne_eq]
      exact fun hh => hn hh.symm
    cases hfind : m.find? (fun p => p.1 == n) with
    | some p => simp
    | none => simp [List.find?, hkn]

theorem keysOf_objSet_pos {α : Type} {m : List (String × α)} {k : String} (v : α)
    (h : m.any (fun p => p.1 == k) = true) : keysOf (objSet m k v) = keysOf m := by
  rw [objSet_pos v h]
  simp only [keysOf, List.map_map]
  refine List.map_congr_left ?_
  intro p _
  by_cases hp : p.1 == k
  · have hpk : p.1 = k := by simpa using hp
    simp [objRepl, hp, Function.comp, hpk]
  · simp [objRepl, hp, Function.comp]

theorem keysOf_objSet_neg {α : Type} {m : List (String × α)} {k : String} (v : α)
    (h : m.any (fun p => p.1 == k) = false) : keysOf (objSet m k v) = keysOf m ++ [k] := by
  rw [objSet_neg v h]
  simp [keysOf]

theorem nodup_keysOf_objSet {α : Type} (m : List (String × α)) (k : String) (v : α)
    (h : (keysOf m).Nodup) : (keysOf (objSet m k v)).Nodup := by
  cases hany : m.any (fun p => p.1 == k) with
  | true => rw [keysOf_objSet_pos v hany]; exact h
  | false =>
    rw [keysOf_objSet_neg v hany]
    rw [List.nodup_append]
    refine ⟨h, List.nodup_singleton k, ?_⟩
    intro a ha hb
    have hak : a = k := by simpa using hb
    exact not_mem_keysOf_of_any_false hany (hak ▸ ha)

theorem mem_keysOf_of_objGet_some {α : Type} {m : List (String × α)} {k : String} {v : α}
    (h : objGet m k = some v) : k ∈ keysOf m := by
  unfold objGet at h
  cases hfind : m.find? (fun p => p.1 == k) with
  | none => rw [hfind] at h; simp at h
  | some p =>
    have hp : p ∈ m := List.mem_of_find?_eq_some hfind
    have hpk : p.1 = k := by simpa using List.find?_some hfind
    exact List.mem_map.mpr ⟨p, hp, hpk⟩

theorem objGet_isSome_of_mem_keysOf {α : Type} {m : List (String × α)} {k : String}
    (h : k ∈ keysOf m) : (objGet m k).isSome := by
  rcases List.mem_map.mp h with ⟨p, hp, hpk⟩
  unfold objGet
  cases hfind : m.find? (fun q => q.1 == k) with
  | some q => simp
  | none =>
    exfalso
    have := List.find?_eq_none.mp hfind p hp
    simp [hpk] at this

/-! ## String helpers mirroring the JavaScript string operations -/

/-- Model of JavaScript `s.split(sep)` for a one-character separator,
on the character list of the string.  `""` splits to `[""]` and a
trailing separator yields a trailing empty segment, as in JS. -/
def splitChars (sep : Char → Bool) : List Char → List (List Char)
  | [] => [[]]
  | c :: cs =>
    if sep c then [] :: splitChars sep cs
    else
      match splitChars sep cs with
      | [] => [[c]]
      | g :: gs => (c :: g) :: gs

/-- Model of `workflow.path.split('/').pop()!` (and of
`workflowListItem.href.split('/').pop()!`): the final segment of the
path, the empty string for an empty path. -/
def jsLastSegment (p : String) : String :=
  String.mk ((splitChars (fun c => c == '/') p.data).getLastD [])

/-- Model of JavaScript `String.prototype.includes`: `containsSub s t`
iff `t` occurs as a contiguous substring of `s`. -/
def containsSub : List Char → List Char → Bool
  | [], t => t.isEmpty
  | c :: cs, t => t.isPrefixOf (c :: cs) || containsSub cs t

theorem containsSub_infix_iff (s t : List Char) :
    containsSub s t = true ↔ t <:+: s := by
  induction s with
  | nil =>
    simp only [containsSub, List.isEmpty_iff]
    constructor
    · rintro rfl; exact List.infix_rfl
    · intro h; exact List.eq_nil_of_infix_nil h
  | cons c cs ih =>
    simp only [containsSub, Bool.or_eq_true, List.isPrefixOf_iff_prefix, ih,
      List.infix_cons_iff]

/-! ## Data model and the two fetchers (`getWorkflows`,
`getFilesInWorkflowPath`) -/

/-- The `Workflow` record type of the source. -/
structure Workflow where
  name : String
  isEnabled : Bool
deriving DecidableEq

/-- One element of `response.workflows` of the v3 `actions/workflows`
endpoint, restricted to the two properties the source reads. -/
structure RawWorkflow where
  path : String
  state : String
deriving DecidableEq

/-- The mapping body of `getWorkflows`: each upstream entry becomes
`{name: workflow.path.split('/').pop()!, isEnabled: workflow.state === 'active'}`. -/
def getWorkflows (response : List RawWorkflow) : List Workflow :=
  response.map (fun w => ⟨jsLastSegment w.path, w.state == "active"⟩)

/-- The GraphQL `object` of a tree entry as the `getFilesInWorkflowPath`
query sees it: the `... on Blob` fragment yields a (nullable) `text`
only for blobs; for a subdirectory (`Tree`) object no fragment applies
and `object.text` is `undefined`. -/
inductive GitObject where
  | blob (text : Option String)
  | subdir
deriving DecidableEq

/-- One element of `workflowFiles.entries`. -/
structure TreeEntry where
  name : String
  obj : GitObject
deriving DecidableEq

/-- Value of `workflow.object.text` for a tree entry. -/
def entryText : GitObject → Option String
  | GitObject.blob t => t
  | GitObject.subdir => none

/-- The result-building loop of `getFilesInWorkflowPath`:
`result[workflow.name] = workflow.object.text` over
`workflowFiles?.entries ?? []` (the directory may be absent, giving
`none`). -/
def getFilesInWorkflowPath (dir : Option (List TreeEntry)) : List (String × Option String) :=
  (dir.getD []).foldl (fun r e => objSet r e.name (entryText e.obj)) []

/-! ## The aggregation loop of `getWorkflowsDetails` -/

/-- Character class `[:\s-]` of the cron regex (`\s` per the JavaScript
definition of whitespace). -/
def jsSpace (c : Char) : Bool :=
  c == ' ' || c == '\t' || c == '\n' || c == '\x0b' || c == '\x0c' || c == '\r' ||
  c.val == 0xa0 || c.val == 0x1680 || (0x2000 ≤ c.val && c.val ≤ 0x200a) ||
  c.val == 0x2028 || c.val == 0x2029 || c.val == 0x202f || c.val == 0x205f ||
  c.val == 0x3000 || c.val == 0xfeff

/-- The single-quote character. -/
def quoteChar : Char := Char.ofNat 39

def isClassA (c : Char) : Bool := c == ':' || jsSpace c || c == '-'

def isClassB (c : Char) : Bool := c == ':' || jsSpace c || c == quoteChar || c == '"'

/-- Characters admitted by the capture group `([^'"\n]+)`. -/
def isCapChar (c : Char) : Bool := !(c == quoteChar || c == '"' || c == '\n')

/-- Match a literal character sequence at the head, returning the rest. -/
def stripLit : List Char → List Char → Option (List Char)
  | [], s => some s
  | _ :: _, [] => none
  | l :: ls, c :: cs => if c == l then stripLit ls cs else none

/-- Greedy backtracking over a one-or-more character-class run: try to
consume `k, k-1, …, 1` characters of `run` (which is the maximal run of
the class) before the continuation, longest first, exactly as the JS
regex engine backtracks a greedy `+`. -/
def tryBack (cont : List Char → Option (List Char)) (run rest : List Char) :
    Nat → Option (List Char)
  | 0 => none
  | k + 1 =>
    match cont (run.drop (k + 1) ++ rest) with
    | some r => some r
    | none => tryBack cont run rest k

/-- The capture group `([^'"\n]+)` at the head of the input: one or more
admissible characters, greedy. -/
def matchCapture : List Char → Option (List Char)
  | [] => none
  | c :: cs => if isCapChar c then some (c :: cs.takeWhile isCapChar) else none

/-- The regex tail `[:\s'"]+([^'"\n]+)` at the head of the input. -/
def matchTailB (s : List Char) : Option (List Char) :=
  tryBack matchCapture (s.takeWhile isClassB) (s.dropWhile isClassB)
    (s.takeWhile isClassB).length

/-- The regex tail `cron[:\s'"]+([^'"\n]+)` at the head of the input. -/
def matchCronOn (s : List Char) : Option (List Char) :=
  match stripLit ("cron".data) s with
  | none => none
  | some s3 => matchTailB s3

/-- The whole regex `schedule[:\s-]+cron[:\s'"]+([^'"\n]+)` anchored at
the head of the input, returning the first capture group. -/
def execCronAt (s : List Char) : Option (List Char) :=
  match stripLit ("schedule".data) s with
  | none => none
  | some s1 =>
    tryBack matchCronOn (s1.takeWhile isClassA) (s1.dropWhile isClassA)
      (s1.takeWhile isClassA).length

/-- `regex.exec`: leftmost match of the pattern, scanning start
positions left to right. -/
def execCron : List Char → Option (List Char)
  | [] => execCronAt []
  | c :: cs =>
    match execCronAt (c :: cs) with
    | some r => some r
    | none => execCron cs

/-- Line 88 of the source:
`/schedule[:\s-]+cron[:\s'"]+([^'"\n]+)/m.exec(workflowYaml)` followed
by `cron?.[1]`.  The `m` flag only changes `^`/`$`, which the pattern
does not use. -/
def extractCron (yaml : String) : Option String :=
  (execCron yaml.data).map String.mk

/-- Line 93 of the source: `workflowYaml.includes('workflow_dispatch:')`. -/
def hasDispatch (yaml : String) : Bool :=
  containsSub yaml.data ("workflow_dispatch:".data)

/-- The `Workflow & WorkflowDetails` record stored under
`details[workflow.name]`. -/
structure WorkflowFull where
  name : String
  isEnabled : Bool
  schedule : Option String
  manuallyDispatchable : Bool
deriving DecidableEq

/-- The record built for one joined workflow:
`{...workflow, schedule: cron?.[1], manuallyDispatchable: ...}`. -/
def mkDetails (w : Workflow) (yaml : String) : WorkflowFull :=
  ⟨w.name, w.isEnabled, extractCron yaml, hasDispatch yaml⟩

/-- One iteration of the `for (const workflow of workflows)` loop in
`getWorkflowsDetails`: a summary whose name has no (defined) entry in
`workflowFiles` is skipped, otherwise the composed record is assigned. -/
def detailsStep (workflowFiles : List (String × Option String))
    (details : List (String × WorkflowFull)) (w : Workflow) : List (String × WorkflowFull) :=
  match recGet workflowFiles w.name with
  | none => details
  | some yaml => objSet details w.name (mkDetails w yaml)

/-- The merge loop of `getWorkflowsDetails` (lines 78–97), as a function
of the two already-fetched inputs. -/
def getWorkflowsDetails (workflows : List Workflow)
    (workflowFiles : List (String × Option String)) : List (String × WorkflowFull) :=
  workflows.foldl (detailsStep workflowFiles) []

/-! ## Cron projector

Modelled from the spec: the projector itself (`parseCron.nextDate` of the
`@cheap-glitch/mi-cron` dependency) is not part of this repository's
source, so §4.5 of the spec is the authority: a standard five-field cron
expression with wildcards, ranges, steps and lists; the result is the
earliest timestamp strictly after `now` matching the expression, or
nothing when the expression is invalid or never matches.  Timestamps are
minutes since 0000-03-01 00:00 of the proleptic Gregorian calendar, and
the five fields are matched conjunctively. -/

def digitsAux : List Char → Nat → Option Nat
  | [], acc => some acc
  | c :: cs, acc => if c.isDigit then digitsAux cs (acc * 10 + (c.toNat - 48)) else none

/-- Parse a non-empty all-digit numeral. -/
def parseNum : List Char → Option Nat
  | [] => none
  | c :: cs => digitsAux (c :: cs) 0

/-- Values `a, a + s, a + 2·s, …` up to `b`. -/
def rangeStep (a b s : Nat) : List Nat :=
  (List.range ((b - a) / s + 1)).map (fun i => a + i * s)

/-- Base of one cron list item: `*`, a single value, or a range; the
result is the bounds together with a flag telling whether the item was a
single value (a single value with a step extends to the field maximum,
as in conventional cron). -/
def parseBase (lo hi : Nat) (base : List Char) : Option (Nat × Nat × Bool) :=
  if base = "*".data then some (lo, hi, false)
  else
    match splitChars (fun c => c == '-') base with
    | [a] =>
      match parseNum a with
      | some x => if lo ≤ x && x ≤ hi then some (x, x, true) else none
      | none => none
    | [a, b] =>
      match parseNum a, parseNum b with
      | some x, some y => if lo ≤ x && x ≤ y && y ≤ hi then some (x, y, false) else none
      | _, _ => none
    | _ => none

/-- One comma-separated item of a cron field, with an optional `/step`. -/
def parseItem (lo hi : Nat) (item : List Char) : Option (List Nat) :=
  match splitChars (fun c => c == '/') item with
  | [base] =>
    match parseBase lo hi base with
    | some (a, b, _) => some (rangeStep a b 1)
    | none => none
  | [base, st] =>
    match parseBase lo hi base, parseNum st with
    | some (a, b, single), some k =>
      if k = 0 then none else some (rangeStep a (if single then hi else b) k)
    | _, _ => none
  | _ => none

/-- A whole cron field: a comma-separated list of items. -/
def parseField (lo hi : Nat) (f : List Char) : Option (List Nat) :=
  (splitChars (fun c => c == ',') f).foldr
    (fun item acc =>
      match parseItem lo hi item, acc with
      | some l, some r => some (l ++ r)
      | _, _ => none)
    (some [])

/-- A parsed five-field cron expression: the admissible values of each
field. -/
structure CronExpr where
  minute : List Nat
  hour : List Nat
  dom : List Nat
  month : List Nat
  dow : List Nat
deriving DecidableEq

/-- Parse a five-field cron expression; day-of-week admits `0`–`7` with
`7` an alias of Sunday (`0`). -/
def parseCronExpr (s : String) : Option CronExpr :=
  match (splitChars (fun c => c == ' ' || c == '\t') s.data).filter (fun f => !f.isEmpty) with
  | [f1, f2, f3, f4, f5] =>
    match parseField 0 59 f1, parseField 0 23 f2, parseField 1 31 f3,
        parseField 1 12 f4, parseField 0 7 f5 with
    | some mi, some h, some d, some mo, some dw =>
        some ⟨mi, h, d, mo, dw.map (fun x => x % 7)⟩
    | _, _, _, _, _ => none
  | _ => none

/-! Civil-calendar conversion (standard era/day-of-era decomposition of
the proleptic Gregorian calendar), for days counted from 0000-03-01,
which was a Wednesday. -/

def yoeOfDoe (doe : Nat) : Nat :=
  (doe - doe / 1460 + doe / 36524 - doe / 146096) / 365

def doyOfDoe (doe : Nat) : Nat :=
  doe - (365 * yoeOfDoe doe + yoeOfDoe doe / 4 - yoeOfDoe doe / 100)

def mpOfDoe (doe : Nat) : Nat := (5 * doyOfDoe doe + 2) / 153

/-- Calendar month (1–12) of a day count. -/
def monthOf (days : Nat) : Nat :=
  if mpOfDoe (days % 146097) < 10 then mpOfDoe (days % 146097) + 3
  else mpOfDoe (days % 146097) - 9

/-- Day of month (1–31) of a day count. -/
def domOf (days : Nat) : Nat :=
  doyOfDoe (days % 146097) - (153 * mpOfDoe (days % 146097) + 2) / 5 + 1

/-- Day of week of a day count, `0` = Sunday … `6` = Saturday. -/
def dowOf (days : Nat) : Nat := (days + 3) % 7

/-- A timestamp (in minutes) matches a parsed cron expression when every
field admits the corresponding component of the timestamp. -/
def matchesCron (e : CronExpr) (t : Nat) : Bool :=
  e.minute.contains (t % 60) && e.hour.contains (t / 60 % 24) &&
  e.dom.contains (domOf (t / 1440)) && e.month.contains (monthOf (t / 1440)) &&
  e.dow.contains (dowOf (t / 1440))

/-- Minutes in 400 Gregorian years (146097 days), the exact period of
the calendar including weekdays: any satisfiable cron expression matches
within this horizon of any starting point. -/
def cronPeriod : Nat := 210379680

/-- Linear scan for the first matching minute, with fuel. -/
def searchCron (e : CronExpr) : Nat → Nat → Option Nat
  | _, 0 => none
  | t, f + 1 => if matchesCron e t then some t else searchCron e (t + 1) f

/-- Modelled from the spec (§4.5): `parseCron.nextDate` — the earliest
timestamp strictly after `now` matching the expression, `none` for an
invalid or never-matching expression. -/
def nextDate (s : String) (now : Nat) : Option Nat :=
  match parseCronExpr s with
  | none => none
  | some e => searchCron e (now + 1) cronPeriod

/-! ## Freshness cache

Modelled from the spec (§4.4): the storage cache wrapping
`getWorkflowsDetails` (`cache.function` of the `webext-storage-cache`
dependency) is not part of this repository's source; only its
configuration is (lines 98–102: `maxAge: \x7bdays: 1\x7d`,
`staleWhileRevalidate: \x7bdays: 10\x7d`, per-repository cache key).
The per-key cache state carries the stored value with its computation
time and a single-flight marker for the outstanding background
revalidation; times are in milliseconds. -/

def cacheDay : Nat := 86400000

structure CacheState (α : Type) where
  entry : Option (α × Nat)
  inFlight : Bool
deriving DecidableEq

inductive CacheAction where
  | hit
  | staleHit (revalidating : Bool)
  | syncCompute
deriving DecidableEq

/-- Modelled from the spec (§4.4): one lookup at time `now`.  An entry
of age at most one day is served as is; an entry inside the
stale-while-revalidate window is served as is while marking a background
revalidation unless one is already in flight; otherwise (no entry, or
past the eleven-day horizon) a synchronous computation is performed and
stored. -/
def cacheGet {α : Type} (compute : α) (now : Nat) (s : CacheState α) :
    α × CacheState α × CacheAction :=
  match s.entry with
  | none => (compute, ⟨some (compute, now), s.inFlight⟩, CacheAction.syncCompute)
  | some (v, t) =>
    if now ≤ t + cacheDay then (v, s, CacheAction.hit)
    else if now < t + 11 * cacheDay then
      if s.inFlight then (v, s, CacheAction.staleHit false)
      else (v, ⟨some (v, t), true⟩, CacheAction.staleHit true)
    else (compute, ⟨some (compute, now), s.inFlight⟩, CacheAction.syncCompute)

/-- A sequence of lookups against one cache key, returning the final
state and the value/action pair served to each caller in order. -/
def cacheRun {α : Type} (compute : α) : CacheState α → List Nat →
    CacheState α × List (α × CacheAction)
  | s, [] => (s, [])
  | s, now :: rest =>
    match cacheGet compute now s with
    | (v, s1, a) =>
      match cacheRun compute s1 rest with
      | (s2, out) => (s2, (v, a) :: out)

/-! ## Indicator resolution (`addIndicators`) -/

structure Indicators where
  disabled : Bool
  dispatchable : Bool
  nextRun : Option Nat
deriving DecidableEq

/-- The pure indicator logic of `addIndicators` (lines 121–138): the
stop icon iff `!workflow.isEnabled`, the play icon iff
`workflow.manuallyDispatchable`, and the next-run time from
`parseCron.nextDate(workflow.schedule)` unless the schedule is absent or
falsy (`if (!workflow.schedule) return`) or the projector returns
nothing. -/
def resolveIndicators (w : WorkflowFull) (now : Nat) : Indicators :=
  { disabled := !w.isEnabled
    dispatchable := w.manuallyDispatchable
    nextRun :=
      match w.schedule with
      | none => none
      | some s => if s = "" then none else nextDate s now }

/-! ## Lemmas about the aggregation loop -/

theorem objGet_foldl_detailsStep_of_recGet_none {D : List (String × Option String)}
    {n : String} (hD : recGet D n = none) :
    ∀ (S : List Workflow) (acc : List (String × WorkflowFull)),
      objGet (S.foldl (detailsStep D) acc) n = objGet acc n := by
  intro S
  induction S with
  | nil => intro acc; rfl
  | cons w0 S ih =>
    intro acc
    rw [List.foldl_cons, ih]
    unfold detailsStep
    cases hw : recGet D w0.name with
    | none => rfl
    | some yaml =>
      have hne : n ≠ w0.name := by
        intro h
        rw [h, hw] at hD
        exact Option.noConfusion hD
      exact objGet_objSet_other acc w0.name n (mkDetails w0 yaml) hne

theorem objGet_foldl_detailsStep_of_recGet_some {D : List (String × Option String)}
    {n : String} {yaml : String} (hD : recGet D n = some yaml) :
    ∀ (S : List Workflow) (acc : List (String × WorkflowFull)),
      objGet (S.foldl (detailsStep D) acc) n =
        match S.reverse.find? (fun w => w.name == n) with
        | some w => some (mkDetails w yaml)
        | none => objGet acc n := by
  intro S
  induction S with
  | nil => intro acc; rfl
  | cons w0 S ih =>
    intro acc
    rw [List.foldl_cons, ih, List.reverse_cons, List.find?_append]
    cases hf : S.reverse.find? (fun w => w.name == n) with
    | some w => rfl
    | none =>
      by_cases hw : w0.name = n
      · have hbeq : (w0.name == n) = true := by simpa using hw
        simp only [List.find?, hbeq, Option.none_or]
        unfold detailsStep
        rw [hw, hD]
        exact objGet_objSet_self acc n (mkDetails w0 yaml)
      · have hbeq : (w0.name == n) = false := by simpa using hw
        simp only [List.find?, hbeq, Option.none_or]
        unfold detailsStep
        cases hw0 : recGet D w0.name with
        | none => rfl
        | some y => exact objGet_objSet_other acc w0.name n (mkDetails w0 y) (fun h => hw h.symm)

theorem nodup_keysOf_foldl_detailsStep (D : List (String × Option String)) :
    ∀ (S : List Workflow) (acc : List (String × WorkflowFull)),
      (keysOf acc).Nodup → (keysOf (S.foldl (detailsStep D) acc)).Nodup := by
  intro S
  induction S with
  | nil => intro acc h; exact h
  | cons w0 S ih =>
    intro acc h
    rw [List.foldl_cons]
    refine ih _ ?_
    unfold detailsStep
    cases recGet D w0.name with
    | none => exact h
    | some yaml => exact nodup_keysOf_objSet acc w0.name (mkDetails w0 yaml) h

theorem nodup_keysOf_getWorkflowsDetails (S : List Workflow)
    (D : List (String × Option String)) : (keysOf (getWorkflowsDetails S D)).Nodup :=
  nodup_keysOf_foldl_detailsStep D S [] List.nodup_nil

theorem find?_eq_head?_filter {α : Type} (p : α → Bool) :
    ∀ l : List α, l.find? p = (l.filter p).head? := by
  intro l
  induction l with
  | nil => rfl
  | cons x l ih =>
    cases hx : p x with
    | true => rw [List.find?_cons_of_pos _ hx, List.filter_cons_of_pos hx, List.head?_cons]
    | false =>
      rw [List.find?_cons_of_neg _ (by simp [hx]), List.filter_cons_of_neg (by simp [hx]), ih]

theorem getLast?_filter_eq_find?_reverse {α : Type} (p : α → Bool) (l : List α) :
    (l.filter p).getLast? = l.reverse.find? p := by
  rw [← List.head?_reverse, ← List.filter_reverse, find?_eq_head?_filter]

/-- C1: the merge loop of `getWorkflowsDetails` produces a mapping whose
key set is exactly the names present both in the summaries list and (with
a defined value) in the definitions mapping: a summary whose name has no
entry in the definitions is dropped, and no definition-only name appears. -/
theorem aggregate_keys_join (S : List Workflow) (D : List (String × Option String))
    (n : String) :
    (objGet (getWorkflowsDetails S D) n).isSome = true ↔
      (∃ w ∈ S, w.name = n) ∧ (recGet D n).isSome = true := by
  unfold getWorkflowsDetails
  cases hD : recGet D n with
  | none =>
    rw [objGet_foldl_detailsStep_of_recGet_none hD]
    rw [show objGet ([] : List (String × WorkflowFull)) n = none from rfl]
    constructor
    · intro hsome; exact absurd hsome (by simp)
    · rintro ⟨-, hsome⟩; exact absurd hsome (by simp)
  | some yaml =>
    rw [objGet_foldl_detailsStep_of_recGet_some hD]
    cases hf : S.reverse.find? (fun w => w.name == n) with
    | some w =>
      refine ⟨fun _ => ⟨⟨w, ?_, ?_⟩, by simp⟩, fun _ => by simp⟩
      · exact List.mem_reverse.mp (List.mem_of_find?_eq_some hf)
      · simpa using List.find?_some hf
    | none =>
      rw [show objGet ([] : List (String × WorkflowFull)) n = none from rfl]
      constructor
      · intro hsome; exact absurd hsome (by simp)
      · rintro ⟨⟨w, hw, hname⟩, -⟩
        exfalso
        have := List.find?_eq_none.mp hf w (List.mem_reverse.mpr hw)
        simp [hname] at this

/-- C10: when several summaries share a name that has a matching
definition, the result holds exactly one record under that name, and the
record is built from the last such summary in list order (later
assignments overwrite earlier ones), with `name` and `isEnabled` copied
unchanged from that summary. -/
theorem aggregate_duplicate_last_wins (S : List Workflow)
    (D : List (String × Option String)) (n : String) (yaml : String)
    (h : recGet D n = some yaml)
    (hdup : 2 ≤ (S.filter (fun w => w.name == n)).length) :
    (keysOf (getWorkflowsDetails S D)).count n = 1 ∧
    ∃ w, (S.filter (fun w => w.name == n)).getLast? = some w ∧ w.name = n ∧
      objGet (getWorkflowsDetails S D) n =
        some ⟨w.name, w.isEnabled, extractCron yaml, hasDispatch yaml⟩ := by
  have hlen : (S.filter (fun w => w.name == n)).length ≠ 0 := by omega
  have hne : S.filter (fun w => w.name == n) ≠ [] := by
    intro hnil; exact hlen (by rw [hnil]; rfl)
  cases hlast : (S.filter (fun w => w.name == n)).getLast? with
  | none => exact absurd (List.getLast?_eq_none_iff.mp hlast) hne
  | some w =>
    have hfind : S.reverse.find? (fun w => w.name == n) = some w := by
      rw [← getLast?_filter_eq_find?_reverse, hlast]
    have hval : objGet (getWorkflowsDetails S D) n = some (mkDetails w yaml) := by
      unfold getWorkflowsDetails
      rw [objGet_foldl_detailsStep_of_recGet_some h, hfind]
    have hwn : w.name = n := by
      have hmem : w ∈ S.filter (fun w => w.name == n) :=
        List.mem_of_getLast?_eq_some hlast
      have := List.of_mem_filter hmem
      simpa using this
    refine ⟨?_, w, rfl, hwn, hval⟩
    have hmemk : n ∈ keysOf (getWorkflowsDetails S D) :=
      mem_keysOf_of_objGet_some hval
    exact List.count_eq_one_of_mem (nodup_keysOf_getWorkflowsDetails S D) hmemk

/-! ## C4: the manual-dispatch flag is a literal substring test -/

theorem containsSub_iff_exists (s t : List Char) :
    containsSub s t = true ↔ ∃ pre post : List Char, s = pre ++ t ++ post := by
  rw [containsSub_infix_iff]
  constructor
  · rintro ⟨pre, post, h⟩; exact ⟨pre, post, h.symm⟩
  · rintro ⟨pre, post, h⟩; exact ⟨pre, post, h.symm⟩

theorem aggregate_value (S : List Workflow) (D : List (String × Option String))
    (n yaml : String) (r : WorkflowFull) (hD : recGet D n = some yaml)
    (hr : objGet (getWorkflowsDetails S D) n = some r) :
    ∃ w, S.reverse.find? (fun w => w.name == n) = some w ∧ r = mkDetails w yaml := by
  unfold getWorkflowsDetails at hr
  rw [objGet_foldl_detailsStep_of_recGet_some hD] at hr
  cases hf : S.reverse.find? (fun w => w.name == n) with
  | none =>
    rw [hf] at hr
    exact absurd hr (by rw [show objGet ([] : List (String × WorkflowFull)) n = none from rfl]; simp)
  | some w =>
    rw [hf] at hr
    exact ⟨w, rfl, (Option.some_injective _ hr).symm⟩

/-- C4: in every composed record the `manuallyDispatchable` flag is true
exactly when the literal substring `workflow_dispatch:` occurs anywhere
in the raw definition text the record was built from. -/
theorem manuallyDispatchable_iff_substring (S : List Workflow)
    (D : List (String × Option String)) (n yaml : String) (r : WorkflowFull)
    (hD : recGet D n = some yaml)
    (hr : objGet (getWorkflowsDetails S D) n = some r) :
    r.manuallyDispatchable = true ↔
      ∃ pre post : List Char, yaml.data = pre ++ ("workflow_dispatch:".data) ++ post := by
  rcases aggregate_value S D n yaml r hD hr with ⟨w, -, rfl⟩
  show hasDispatch yaml = true ↔ _
  rw [hasDispatch, containsSub_iff_exists]

/-! ## C5: name derivation in the workflow list fetcher -/

/-- C5: every upstream entry contributes exactly one summary, in order,
whose name is the final `/`-separated segment of the declared path (the
empty string for an empty path) and whose enabled flag tests
`state === 'active'`; nothing is deduplicated or validated, and an
empty-string name is dropped by the join when the definitions are keyed
by non-empty filenames. -/
theorem workflow_list_fetcher_tolerant (resp : List RawWorkflow)
    (S : List Workflow) (D : List (String × Option String))
    (hkeys : ∀ k ∈ keysOf D, k ≠ "") :
    (getWorkflows resp).length = resp.length ∧
    (∀ i : Nat, (getWorkflows resp)[i]? =
      (resp[i]?).map (fun w => ⟨jsLastSegment w.path, w.state == "active"⟩)) ∧
    jsLastSegment "" = "" ∧
    objGet (getWorkflowsDetails S D) "" = none := by
  refine ⟨List.length_map resp _, fun i => List.getElem?_map _ resp i, rfl, ?_⟩
  cases hD : recGet D "" with
  | some t =>
    have hobj : objGet D "" = some (some t) := by
      cases ho : objGet D "" with
      | none => rw [recGet, ho] at hD; exact Option.noConfusion hD
      | some x =>
        rw [recGet, ho] at hD
        have hx : x = some t := hD
        rw [hx]
    exact absurd rfl (hkeys "" (mem_keysOf_of_objGet_some hobj))
  | none =>
    unfold getWorkflowsDetails
    rw [objGet_foldl_detailsStep_of_recGet_none hD]
    rfl

/-! ## C8: the definition fetcher takes contributions only from files -/

theorem recGet_foldl_entries :
    ∀ (l : List TreeEntry) (acc : List (String × Option String)) (n t : String),
      recGet (l.foldl (fun r e => objSet r e.name (entryText e.obj)) acc) n = some t →
      recGet acc n = some t ∨ ∃ e ∈ l, e.name = n ∧ entryText e.obj = some t := by
  intro l
  induction l with
  | nil => intro acc n t h; exact Or.inl h
  | cons e0 l ih =>
    intro acc n t h
    rw [List.foldl_cons] at h
    rcases ih _ n t h with h1 | ⟨e, he, hn, ht⟩
    · by_cases hne : n = e0.name
      · subst hne
        rw [recGet, objGet_objSet_self] at h1
        exact Or.inr ⟨e0, List.mem_cons_self e0 l, rfl, h1⟩
      · rw [recGet, objGet_objSet_other acc e0.name n _ hne] at h1
        exact Or.inl h1
    · exact Or.inr ⟨e, List.mem_cons_of_mem e0 he, hn, ht⟩

/-- C8: a defined entry of the definition-fetcher result can only come
from a tree entry that is a plain file (a blob with text): subdirectory
entries contribute nothing to any lookup, and an absent or empty
workflows directory yields the empty mapping rather than an error. -/
theorem definition_fetcher_files_only (dir : Option (List TreeEntry)) :
    (∀ n t : String, recGet (getFilesInWorkflowPath dir) n = some t →
      ∃ e ∈ dir.getD [], e.name = n ∧ e.obj = GitObject.blob (some t)) ∧
    getFilesInWorkflowPath none = [] ∧ getFilesInWorkflowPath (some []) = [] := by
  refine ⟨?_, rfl, rfl⟩
  intro n t h
  rcases recGet_foldl_entries (dir.getD []) [] n t h with h1 | ⟨e, he, hn, ht⟩
  · exact absurd h1 (by rw [show recGet [] n = none from rfl]; simp)
  · refine ⟨e, he, hn, ?_⟩
    cases hobj : e.obj with
    | subdir => rw [hobj] at ht; exact absurd ht (by rw [show entryText GitObject.subdir = none from rfl]; simp)
    | blob t' => rw [hobj] at ht; rw [show entryText (GitObject.blob t') = t' from rfl] at ht; rw [ht]

/-! ## C2: freshness policy of the cache wrapper -/

theorem cacheGet_fresh {α : Type} (compute v : α) (t now : Nat) (fl : Bool)
    (h : now ≤ t + cacheDay) :
    cacheGet compute now ⟨some (v, t), fl⟩ = (v, ⟨some (v, t), fl⟩, CacheAction.hit) := by
  simp [cacheGet, h]

theorem cacheGet_stale {α : Type} (compute v : α) (t now : Nat) (fl : Bool)
    (h1 : t + cacheDay < now) (h2 : now < t + 11 * cacheDay) :
    cacheGet compute now ⟨some (v, t), fl⟩ =
      (v, ⟨some (v, t), true⟩, CacheAction.staleHit (!fl)) := by
  have hn : ¬(now ≤ t + cacheDay) := by omega
  cases fl with
  | true => simp [cacheGet, hn, h2]
  | false => simp [cacheGet, hn, h2]

theorem cacheGet_expired {α : Type} (compute v : α) (t now : Nat) (fl : Bool)
    (h : t + 11 * cacheDay ≤ now) :
    cacheGet compute now ⟨some (v, t), fl⟩ =
      (compute, ⟨some (compute, now), fl⟩, CacheAction.syncCompute) := by
  have hn1 : ¬(now ≤ t + cacheDay) := by unfold cacheDay at *; omega
  have hn2 : ¬(now < t + 11 * cacheDay) := by omega
  simp [cacheGet, hn1, hn2]

theorem cacheRun_stale_window {α : Type} (compute v : α) (t : Nat) :
    ∀ (times : List Nat) (fl : Bool),
      (∀ x ∈ times, t + cacheDay < x ∧ x < t + 11 * cacheDay) →
      (∀ p ∈ (cacheRun compute ⟨some (v, t), fl⟩ times).2, p.1 = v) ∧
      ((cacheRun compute ⟨some (v, t), fl⟩ times).2.countP
        (fun p => p.2 == CacheAction.staleHit true)) ≤ (if fl then 0 else 1) := by
  intro times
  induction times with
  | nil =>
    intro fl _
    exact ⟨fun p hp => absurd hp (List.not_mem_nil p), by cases fl <;> simp [cacheRun]⟩
  | cons now rest ih =>
    intro fl hall
    have hnow := hall now (List.mem_cons_self now rest)
    have hrest : ∀ x ∈ rest, t + cacheDay < x ∧ x < t + 11 * cacheDay :=
      fun x hx => hall x (List.mem_cons_of_mem now hx)
    have hstep := cacheGet_stale compute v t now fl hnow.1 hnow.2
    have hrun : cacheRun compute ⟨some (v, t), fl⟩ (now :: rest) =
        ((cacheRun compute ⟨some (v, t), true⟩ rest).1,
          (v, CacheAction.staleHit (!fl)) :: (cacheRun compute ⟨some (v, t), true⟩ rest).2) := by
      show (match cacheGet compute now ⟨some (v, t), fl⟩ with
        | (v1, s1, a) =>
          match cacheRun compute s1 rest with
          | (s2, out) => (s2, (v1, a) :: out)) = _
      rw [hstep]
    have hrun2 : (cacheRun compute ⟨some (v, t), fl⟩ (now :: rest)).2 =
        (v, CacheAction.staleHit (!fl)) :: (cacheRun compute ⟨some (v, t), true⟩ rest).2 := by
      rw [hrun]
    rcases ih true hrest with ⟨ihv, ihc⟩
    constructor
    · intro p hp
      rw [hrun2] at hp
      rcases List.mem_cons.mp hp with h | h
      · rw [h]
      · exact ihv p h
    · rw [hrun2]
      simp only [if_true] at ihc
      cases fl with
      | true =>
        rw [List.countP_cons_of_neg _ _ (by simp)]
        simpa using ihc
      | false =>
        rw [List.countP_cons_of_pos _ _ (by simp)]
        simp only [Bool.false_eq_true, if_false]
        omega

/-- C2: for a stored entry of age at most one day the lookup serves the
stored value with no state change; inside the stale-while-revalidate
window (age strictly between one and eleven days) every lookup serves
the stored value and at most one background revalidation is triggered
across any sequence of lookups in that window; at age eleven days or
more, or with no entry, the lookup performs a synchronous computation
and stores it. -/
theorem cache_freshness_policy {α : Type} (compute v : α) (t now : Nat) (fl : Bool) :
    (now ≤ t + cacheDay →
      cacheGet compute now ⟨some (v, t), fl⟩ = (v, ⟨some (v, t), fl⟩, CacheAction.hit)) ∧
    (t + cacheDay < now → now < t + 11 * cacheDay →
      (cacheGet compute now ⟨some (v, t), fl⟩).1 = v) ∧
    (∀ times : List Nat, (∀ x ∈ times, t + cacheDay < x ∧ x < t + 11 * cacheDay) →
      (∀ p ∈ (cacheRun compute ⟨some (v, t), false⟩ times).2, p.1 = v) ∧
      ((cacheRun compute ⟨some (v, t), false⟩ times).2.countP
        (fun p => p.2 == CacheAction.staleHit true)) ≤ 1) ∧
    (t + 11 * cacheDay ≤ now →
      cacheGet compute now ⟨some (v, t), fl⟩ =
        (compute, ⟨some (compute, now), fl⟩, CacheAction.syncCompute)) ∧
    cacheGet compute now (⟨none, fl⟩ : CacheState α) =
      (compute, ⟨some (compute, now), fl⟩, CacheAction.syncCompute) := by
  refine ⟨fun h => cacheGet_fresh compute v t now fl h,
    fun h1 h2 => by rw [cacheGet_stale compute v t now fl h1 h2],
    fun times hall => ?_,
    fun h => cacheGet_expired compute v t now fl h, rfl⟩
  have := cacheRun_stale_window compute v t times false hall
  simpa using this

/-! ## C6: the cron projector -/

theorem searchCron_some {e : CronExpr} :
    ∀ (f t m : Nat), searchCron e t f = some m →
      t ≤ m ∧ m < t + f ∧ matchesCron e m = true ∧
      ∀ k, t ≤ k → k < m → matchesCron e k = false := by
  intro f
  induction f with
  | zero => intro t m h; exact absurd h (by simp [searchCron])
  | succ f ih =>
    intro t m h
    rw [searchCron] at h
    by_cases hm : matchesCron e t = true
    · rw [if_pos hm] at h
      have hmt : t = m := Option.some_injective _ h
      subst hmt
      exact ⟨Nat.le_refl t, by omega, hm, fun k hk1 hk2 => absurd (by omega : t < t) (by omega)⟩
    · rw [if_neg hm] at h
      rcases ih (t + 1) m h with ⟨h1, h2, h3, h4⟩
      refine ⟨by omega, by omega, h3, ?_⟩
      intro k hk1 hk2
      by_cases hkt : k = t
      · subst hkt; simpa using hm
      · exact h4 k (by omega) hk2

theorem searchCron_none {e : CronExpr} :
    ∀ (f t : Nat), searchCron e t f = none →
      ∀ k, t ≤ k → k < t + f → matchesCron e k = false := by
  intro f
  induction f with
  | zero => intro t _ k hk1 hk2; omega
  | succ f ih =>
    intro t h k hk1 hk2
    rw [searchCron] at h
    by_cases hm : matchesCron e t = true
    · rw [if_pos hm] at h; exact Option.noConfusion h
    · rw [if_neg hm] at h
      by_cases hkt : k = t
      · subst hkt; simpa using hm
      · exact ih (t + 1) h k (by omega) (by omega)

theorem searchCron_isSome {e : CronExpr} {f t k : Nat} (hk1 : t ≤ k) (hk2 : k < t + f)
    (hm : matchesCron e k = true) : (searchCron e t f).isSome = true := by
  cases h : searchCron e t f with
  | some m => rfl
  | none =>
    have := searchCron_none f t h k hk1 hk2
    rw [hm] at this
    exact Bool.noConfusion this

theorem monthOf_add_period (d : Nat) : monthOf (d + 146097) = monthOf d := by
  unfold monthOf
  rw [Nat.add_mod_right]

theorem domOf_add_period (d : Nat) : domOf (d + 146097) = domOf d := by
  unfold domOf
  rw [Nat.add_mod_right]

theorem dowOf_add_period (d : Nat) : dowOf (d + 146097) = dowOf d := by
  unfold dowOf
  omega

/-- The match predicate is invariant under the 400-year period of the
Gregorian calendar: the horizon used by `nextDate` misses no satisfiable
expression. -/
theorem matchesCron_add_period (e : CronExpr) (t : Nat) :
    matchesCron e (t + cronPeriod) = matchesCron e t := by
  unfold matchesCron cronPeriod
  have h60 : (t + 210379680) % 60 = t % 60 := by omega
  have hdiv60 : (t + 210379680) / 60 % 24 = t / 60 % 24 := by omega
  have hdays : (t + 210379680) / 1440 = t / 1440 + 146097 := by omega
  rw [h60, hdiv60, hdays, monthOf_add_period, domOf_add_period, dowOf_add_period]

theorem matchesCron_add_mul_period (e : CronExpr) (t : Nat) :
    ∀ j : Nat, matchesCron e (t + j * cronPeriod) = matchesCron e t := by
  intro j
  induction j with
  | zero => rfl
  | succ j ih =>
    have harr : t + (j + 1) * cronPeriod = t + j * cronPeriod + cronPeriod := by ring
    rw [harr, matchesCron_add_period, ih]

theorem exists_match_in_period {e : CronExpr} {now : Nat}
    (h : ∃ k, now < k ∧ matchesCron e k = true) :
    ∃ k, now < k ∧ k < now + 1 + cronPeriod ∧ matchesCron e k = true := by
  rcases h with ⟨k, hk, hm⟩
  have hc : cronPeriod = 210379680 := rfl
  have hk2 : k = now + 1 + (k - now - 1) % cronPeriod +
      (k - now - 1) / cronPeriod * cronPeriod := by rw [hc]; omega
  refine ⟨now + 1 + (k - now - 1) % cronPeriod, by omega, by rw [hc]; omega, ?_⟩
  have hper := matchesCron_add_mul_period e (now + 1 + (k - now - 1) % cronPeriod)
    ((k - now - 1) / cronPeriod)
  rw [← hper, ← hk2, hm]

/-- C6: the projector is a pure function of the expression and `now`
(hence deterministic); any result is strictly after `now`; for a parsed
expression the result is the earliest matching timestamp after `now`,
a result exists whenever some matching timestamp exists, and a
never-matching or unparsable expression yields nothing. -/
theorem nextDate_spec (s : String) (now : Nat) :
    (∀ m, nextDate s now = some m → now < m) ∧
    (∀ e, parseCronExpr s = some e →
      (∀ m, nextDate s now = some m → matchesCron e m = true ∧
        ∀ k, now < k → k < m → matchesCron e k = false) ∧
      ((∃ k, now < k ∧ matchesCron e k = true) → (nextDate s now).isSome = true) ∧
      ((∀ k, matchesCron e k = false) → nextDate s now = none)) ∧
    (parseCronExpr s = none → nextDate s now = none) := by
  unfold nextDate
  cases hp : parseCronExpr s with
  | none =>
    exact ⟨fun m h => Option.noConfusion h, fun e he => Option.noConfusion he, fun _ => rfl⟩
  | some e0 =>
    refine ⟨?_, ?_, fun h => Option.noConfusion h⟩
    · intro m h
      have := (searchCron_some cronPeriod (now + 1) m h).1
      omega
    · intro e he
      have hee : e0 = e := Option.some_injective _ he
      subst hee
      refine ⟨?_, ?_, ?_⟩
      · intro m h
        rcases searchCron_some cronPeriod (now + 1) m h with ⟨h1, h2, h3, h4⟩
        exact ⟨h3, fun k hk1 hk2 => h4 k (by omega) hk2⟩
      · intro hex
        rcases exists_match_in_period hex with ⟨k, hk1, hk2, hk3⟩
        exact searchCron_isSome (by omega) (by omega) hk3
      · intro hnever
        cases h : searchCron e0 (now + 1) cronPeriod with
        | none => exact h
        | some m =>
          have := (searchCron_some cronPeriod (now + 1) m h).2.2.1
          rw [hnever m] at this
          exact Bool.noConfusion this

/-! ## C3: soundness of the cron-capture regular expression -/

theorem stripLit_some : ∀ (lit s r : List Char), stripLit lit s = some r → s = lit ++ r := by
  intro lit
  induction lit with
  | nil => intro s r h; simpa [stripLit] using Option.some_injective _ h
  | cons l ls ih =>
    intro s r h
    cases s with
    | nil => exact absurd h (by simp [stripLit])
    | cons c cs =>
      rw [stripLit] at h
      by_cases hc : c == l
      · have hcl : c = l := by simpa using hc
        rw [if_pos hc] at h
        rw [List.cons_append, ← ih cs r h, hcl]
      · rw [if_neg hc] at h
        exact Option.noConfusion h

theorem tryBack_some (cont : List Char → Option (List Char)) (run rest : List Char) :
    ∀ (k : Nat) (r : List Char), tryBack cont run rest k = some r →
      ∃ j, 1 ≤ j ∧ j ≤ k ∧ cont (run.drop j ++ rest) = some r := by
  intro k
  induction k with
  | zero => intro r h; exact absurd h (by simp [tryBack])
  | succ k ih =>
    intro r h
    rw [tryBack] at h
    cases hc : cont (run.drop (k + 1) ++ rest) with
    | some r2 =>
      rw [hc] at h
      exact ⟨k + 1, by omega, Nat.le_refl _, hc.trans h⟩
    | none =>
      rw [hc] at h
      rcases ih r h with ⟨j, hj1, hj2, hj3⟩
      exact ⟨j, hj1, by omega, hj3⟩

theorem dropWhile_head_false (p : Char → Bool) :
    ∀ (l : List Char) (r : Char) (rs : List Char), l.dropWhile p = r :: rs → p r = false := by
  intro l
  induction l with
  | nil => intro r rs h; exact absurd h (by simp)
  | cons c cs ih =>
    intro r rs h
    rw [List.dropWhile] at h
    cases hp : p c with
    | true => rw [hp] at h; exact ih r rs h
    | false =>
      rw [hp] at h
      have : c = r := (List.cons.injEq c cs r rs ▸ h).1
      rw [← this]; exact hp

/-- What a successful capture means: the input splits as the non-empty
capture (all characters admissible) followed by a rest that is empty or
starts with a quote or newline. -/
def CaptureSplit (s c : List Char) : Prop :=
  ∃ rest, s = c ++ rest ∧ c ≠ [] ∧ (∀ x ∈ c, isCapChar x = true) ∧
    (rest = [] ∨ ∃ r rs, rest = r :: rs ∧ isCapChar r = false)

theorem matchCapture_some {s c : List Char} (h : matchCapture s = some c) :
    CaptureSplit s c := by
  cases s with
  | nil => exact absurd h (by simp [matchCapture])
  | cons ch cs =>
    rw [matchCapture] at h
    by_cases hch : isCapChar ch = true
    · rw [if_pos hch] at h
      have hc : c = ch :: cs.takeWhile isCapChar := (Option.some_injective _ h).symm
      refine ⟨cs.dropWhile isCapChar, ?_, by rw [hc]; exact List.cons_ne_nil _ _, ?_, ?_⟩
      · rw [hc, List.cons_append, List.takeWhile_append_dropWhile]
      · intro x hx
        rw [hc] at hx
        rcases List.mem_cons.mp hx with hx | hx
        · rw [hx]; exact hch
        · exact List.mem_takeWhile_imp hx
      · cases hd : cs.dropWhile isCapChar with
        | nil => exact Or.inl rfl
        | cons r rs => exact Or.inr ⟨r, rs, rfl, dropWhile_head_false isCapChar cs r rs hd⟩
    · rw [if_neg hch] at h
      exact Option.noConfusion h

theorem matchTailB_some {s c : List Char} (h : matchTailB s = some c) :
    ∃ b tail, s = b ++ tail ∧ b ≠ [] ∧ (∀ x ∈ b, isClassB x = true) ∧ CaptureSplit tail c := by
  unfold matchTailB at h
  rcases tryBack_some _ _ _ _ c h with ⟨j, hj1, hj2, hj3⟩
  have hsplit := matchCapture_some hj3
  refine ⟨(s.takeWhile isClassB).take j, (s.takeWhile isClassB).drop j ++ s.dropWhile isClassB,
    ?_, ?_, ?_, hsplit⟩
  · rw [← List.append_assoc, List.take_append_drop, List.takeWhile_append_dropWhile]
  · intro hnil
    have := congrArg List.length hnil
    rw [List.length_take] at this
    simp only [List.length_nil] at this
    omega
  · intro x hx
    exact List.mem_takeWhile_imp (List.mem_of_mem_take hx)

theorem matchCronOn_some {s c : List Char} (h : matchCronOn s = some c) :
    ∃ b tail, s = ("cron".data) ++ b ++ tail ∧ b ≠ [] ∧
      (∀ x ∈ b, isClassB x = true) ∧ CaptureSplit tail c := by
  unfold matchCronOn at h
  cases hstrip : stripLit ("cron".data) s with
  | none => rw [hstrip] at h; exact Option.noConfusion h
  | some s3 =>
    rw [hstrip] at h
    rcases matchTailB_some h with ⟨b, tail, hb1, hb2, hb3, hb4⟩
    exact ⟨b, tail, by rw [stripLit_some _ s s3 hstrip, hb1, List.append_assoc], hb2, hb3, hb4⟩

theorem execCronAt_some {s c : List Char} (h : execCronAt s = some c) :
    ∃ a b tail, s = ("schedule".data) ++ a ++ ("cron".data) ++ b ++ tail ∧
      a ≠ [] ∧ (∀ x ∈ a, isClassA x = true) ∧ b ≠ [] ∧
      (∀ x ∈ b, isClassB x = true) ∧ CaptureSplit tail c := by
  unfold execCronAt at h
  cases hstrip : stripLit ("schedule".data) s with
  | none => rw [hstrip] at h; exact Option.noConfusion h
  | some s1 =>
    rw [hstrip] at h
    rcases tryBack_some _ _ _ _ c h with ⟨j, hj1, hj2, hj3⟩
    rcases matchCronOn_some hj3 with ⟨b, tail, hb1, hb2, hb3, hb4⟩
    refine ⟨(s1.takeWhile isClassA).take j, b, tail, ?_, ?_, ?_, hb2, hb3, hb4⟩
    · rw [stripLit_some _ s s1 hstrip]
      have hs1 : s1 = (s1.takeWhile isClassA).take j ++
          ((s1.takeWhile isClassA).drop j ++ s1.dropWhile isClassA) := by
        rw [← List.append_assoc, List.take_append_drop, List.takeWhile_append_dropWhile]
      have hb1' : (s1.takeWhile isClassA).drop j ++ s1.dropWhile isClassA =
          ("cron".data) ++ (b ++ tail) := by
        rw [hb1, List.append_assoc]
      simp only [List.append_assoc]
      congr 1
      conv_lhs => rw [hs1]
      rw [hb1']
    · intro hnil
      have := congrArg List.length hnil
      rw [List.length_take] at this
      simp only [List.length_nil] at this
      omega
    · intro x hx
      exact List.mem_takeWhile_imp (List.mem_of_mem_take hx)

theorem execCron_some :
    ∀ {s c : List Char}, execCron s = some c →
      ∃ pre a b tail, s = pre ++ ("schedule".data) ++ a ++ ("cron".data) ++ b ++ tail ∧
        a ≠ [] ∧ (∀ x ∈ a, isClassA x = true) ∧ b ≠ [] ∧
        (∀ x ∈ b, isClassB x = true) ∧ CaptureSplit tail c := by
  intro s
  induction s with
  | nil => intro c h; exact absurd h (by rw [show execCron [] = none from rfl]; simp)
  | cons ch cs ih =>
    intro c h
    rw [execCron] at h
    cases hat : execCronAt (ch :: cs) with
    | some r =>
      rw [hat] at h
      have hrc : r = c := Option.some_injective _ h
      rcases execCronAt_some (hrc ▸ hat) with ⟨a, b, tail, h1, h2, h3, h4, h5, h6⟩
      exact ⟨[], a, b, tail, by rw [List.nil_append]; exact h1, h2, h3, h4, h5, h6⟩
    | none =>
      rw [hat] at h
      rcases ih h with ⟨pre, a, b, tail, h1, h2, h3, h4, h5, h6⟩
      refine ⟨ch :: pre, a, b, tail, ?_, h2, h3, h4, h5, h6⟩
      simp only [List.cons_append]
      rw [← h1]

/-- C3 (amended: the regex is case-sensitive — its only flag is `m`):
a successful extraction decomposes the text as the literal `schedule`,
one or more `[:\s-]` characters, the literal `cron`, one or more
`[:\s'"]` characters, then the non-empty capture running up to the next
quote, newline or end of text; the spec's round-trip examples hold, and
the leftmost (first) match is returned. -/
theorem extractCron_spec :
    (∀ (y c : String), extractCron y = some c →
      ∃ pre a b tail, y.data = pre ++ ("schedule".data) ++ a ++ ("cron".data) ++ b ++ tail ∧
        a ≠ [] ∧ (∀ x ∈ a, isClassA x = true) ∧ b ≠ [] ∧
        (∀ x ∈ b, isClassB x = true) ∧ CaptureSplit tail c.data) ∧
    extractCron "schedule:\n  - cron: \"0 0 * * *\"" = some "0 0 * * *" ∧
    extractCron "on:\n  push:\n" = none ∧
    extractCron "schedule:\n - cron: \"a\"\nschedule:\n - cron: \"b\"" = some "a" := by
  refine ⟨?_, by decide, by decide, by decide⟩
  intro y c h
  unfold extractCron at h
  rcases Option.map_eq_some'.mp h with ⟨l, hl, hc⟩
  have hcd : c.data = l := by rw [← hc]
  rw [hcd]
  exact execCron_some hl

/-- C3 counterexample: the source regex
`/schedule[:\s-]+cron[:\s'"]+([^'"\n]+)/m` carries no `i` flag, so the
claimed case-insensitive matching fails: the upper-case variant of the
spec's own round-trip text yields no schedule while the lower-case text
yields one. -/
theorem extractCron_case_sensitive :
    extractCron "SCHEDULE:\n  - CRON: \"0 0 * * *\"" = none ∧
    extractCron "schedule:\n  - cron: \"0 0 * * *\"" = some "0 0 * * *" := by
  exact ⟨by decide, by decide⟩

/-! ## C7: indicator resolution and the composed scenario -/

theorem domOf_bounds (d : Nat) : 1 ≤ domOf d ∧ domOf d ≤ 31 := by
  simp only [domOf, mpOfDoe, doyOfDoe, yoeOfDoe]
  omega

theorem monthOf_bounds (d : Nat) : 1 ≤ monthOf d ∧ monthOf d ≤ 12 := by
  unfold monthOf
  by_cases h : mpOfDoe (d % 146097) < 10
  · rw [if_pos h]
    omega
  · rw [if_neg h]
    simp only [mpOfDoe, doyOfDoe, yoeOfDoe] at h ⊢
    omega

theorem contains_rangeStep_one {a b x : Nat} (h1 : a ≤ x) (h2 : x ≤ b) :
    (rangeStep a b 1).contains x = true := by
  have hx : x ∈ rangeStep a b 1 := by
    unfold rangeStep
    exact List.mem_map.mpr ⟨x - a, List.mem_range.mpr (by omega), by omega⟩
  exact List.elem_eq_true_of_mem hx

/-- The parse of `30 5 * * 1`. -/
def cronMon : CronExpr := ⟨[30], [5], rangeStep 1 31 1, rangeStep 1 12 1, [1]⟩

/-- Any minute falling on a Monday at 05:30 matches `30 5 * * 1`. -/
theorem matchesCronMon_of_monday (k : Nat) (hdow : dowOf (k / 1440) = 1)
    (hmod : k % 1440 = 330) : matchesCron cronMon k = true := by
  have h60 : k % 60 = 30 := by omega
  have h24 : k / 60 % 24 = 5 := by omega
  have hd := contains_rangeStep_one (domOf_bounds (k / 1440)).1 (domOf_bounds (k / 1440)).2
  have hm2 := contains_rangeStep_one (monthOf_bounds (k / 1440)).1 (monthOf_bounds (k / 1440)).2
  show ([30].contains (k % 60) && [5].contains (k / 60 % 24) &&
    (rangeStep 1 31 1).contains (domOf (k / 1440)) &&
    (rangeStep 1 12 1).contains (monthOf (k / 1440)) &&
    [1].contains (dowOf (k / 1440))) = true
  rw [h60, h24, hdow, hd, hm2]
  decide

/-- The single-quote string. -/
def sqStr : String := String.mk [quoteChar]

/-- The raw definition text of the spec's scenario:
`on:\n  workflow_dispatch:\n  schedule:\n    - cron: '30 5 * * 1'`. -/
def yamlCi : String :=
  "on:\n  workflow_dispatch:\n  schedule:\n    - cron: " ++ sqStr ++ "30 5 * * 1" ++ sqStr

def summariesCi : List Workflow := [⟨"ci.yml", false⟩]

def filesCi : List (String × Option String) := [("ci.yml", some yamlCi)]

/-- Monday 2024-01-01 00:00 in minutes since 0000-03-01. -/
def nowCi : Nat := 1064435040

/-- Monday 2024-01-01 05:30 in minutes since 0000-03-01. -/
def nextMonCi : Nat := 1064435370

set_option maxRecDepth 1000000 in
/-- C7: the three indicator rules are applied independently — `disabled`
is the negation of `isEnabled`, `dispatchable` equals
`manuallyDispatchable`, and `nextRun` is the projector's result unless
the schedule is absent (or the projector yields nothing); and the spec's
scenario composes to a disabled, dispatchable workflow whose next run is
the first Monday 05:30 after `now`. -/
theorem resolveIndicators_rules (w : WorkflowFull) (now : Nat) :
    ((resolveIndicators w now).disabled = !w.isEnabled ∧
     (resolveIndicators w now).dispatchable = w.manuallyDispatchable ∧
     (w.schedule = none → (resolveIndicators w now).nextRun = none) ∧
     (∀ s, w.schedule = some s → s ≠ "" →
       (resolveIndicators w now).nextRun = nextDate s now)) ∧
    (objGet (getWorkflowsDetails summariesCi filesCi) "ci.yml" =
      some ⟨"ci.yml", false, some "30 5 * * 1", true⟩ ∧
     resolveIndicators ⟨"ci.yml", false, some "30 5 * * 1", true⟩ nowCi =
      ⟨true, true, some nextMonCi⟩ ∧
     nowCi < nextMonCi ∧ dowOf (nextMonCi / 1440) = 1 ∧ nextMonCi % 1440 = 330 ∧
     (∀ k, nowCi < k → k < nextMonCi →
       ¬(dowOf (k / 1440) = 1 ∧ k % 1440 = 330))) := by
  constructor
  · refine ⟨rfl, rfl, ?_, ?_⟩
    · intro hs
      show (match w.schedule with
        | none => none
        | some s => if s = "" then none else nextDate s now) = none
      rw [hs]
    · intro s hs hne
      show (match w.schedule with
        | none => none
        | some s => if s = "" then none else nextDate s now) = nextDate s now
      rw [hs]
      show (if s = "" then none else nextDate s now) = nextDate s now
      rw [if_neg hne]
  · refine ⟨by decide, by decide, by decide, by decide, by decide, ?_⟩
    intro k hk1 hk2 ⟨hdow, hmod⟩
    have hmatch := matchesCronMon_of_monday k hdow hmod
    have hparse : parseCronExpr "30 5 * * 1" = some cronMon := by decide
    have hnd : nextDate "30 5 * * 1" nowCi = some nextMonCi := by decide
    have hsearch : searchCron cronMon (nowCi + 1) cronPeriod = some nextMonCi := by
      unfold nextDate at hnd
      rw [hparse] at hnd
      exact hnd
    have hmin := (searchCron_some cronPeriod (nowCi + 1) nextMonCi hsearch).2.2.2
    have := hmin k (by omega) hk2
    rw [hmatch] at this
    exact Bool.noConfusion this

/-! ## C9: malformed cron strings degrade to no next run -/

/-- C9: a composed record keeps the raw captured text as its schedule
whether or not it parses; when the captured text does not parse the
resolver simply produces no `nextRun`, and the projector itself is a
total function returning `none` on any unparsable expression (no
exception can propagate). -/
theorem malformed_cron_degrades (S : List Workflow) (D : List (String × Option String))
    (n yaml : String) (r : WorkflowFull) (now : Nat)
    (hD : recGet D n = some yaml)
    (hr : objGet (getWorkflowsDetails S D) n = some r) :
    r.schedule = extractCron yaml ∧
    (∀ s, r.schedule = some s → parseCronExpr s = none →
      (resolveIndicators r now).nextRun = none) ∧
    (∀ (s : String) (t2 : Nat), parseCronExpr s = none → nextDate s t2 = none) := by
  rcases aggregate_value S D n yaml r hD hr with ⟨w, -, rfl⟩
  refine ⟨rfl, ?_, ?_⟩
  · intro s hs hparse
    show (match (mkDetails w yaml).schedule with
      | none => none
      | some s => if s = "" then none else nextDate s now) = none
    rw [hs]
    show (if s = "" then none else nextDate s now) = none
    by_cases hse : s = ""
    · rw [if_pos hse]
    · rw [if_neg hse]
      unfold nextDate
      rw [hparse]
  · intro s t2 hparse
    unfold nextDate
    rw [hparse]

/-! ## Concrete witnesses -/

/-- A second summaries list with a duplicated name, for the last-wins
witness. -/
def summariesDup : List Workflow := [⟨"ci.yml", true⟩, ⟨"ci.yml", false⟩]

/-- A definition text whose captured cron string does not parse. -/
def yamlBad : String := "schedule:\n - cron: not-a-cron\n"

def summariesBad : List Workflow := [⟨"bad.yml", true⟩]

def filesBad : List (String × Option String) := [("bad.yml", some yamlBad)]

theorem cache_freshness_policy_witness :
    cacheGet 7 0 (⟨some (3, 0), false⟩ : CacheState Nat) =
      (3, ⟨some (3, 0), false⟩, CacheAction.hit) ∧
    ((∀ p ∈ (cacheRun 7 (⟨some (3, 0), false⟩ : CacheState Nat)
        [100000000, 200000000]).2, p.1 = 3) ∧
      ((cacheRun 7 (⟨some (3, 0), false⟩ : CacheState Nat)
        [100000000, 200000000]).2.countP
          (fun p => p.2 == CacheAction.staleHit true)) ≤ 1) ∧
    cacheGet 7 960000000 (⟨some (3, 0), false⟩ : CacheState Nat) =
      (7, ⟨some (7, 960000000), false⟩, CacheAction.syncCompute) :=
  ⟨(cache_freshness_policy 7 3 0 0 false).1 (by decide),
   (cache_freshness_policy 7 3 0 0 false).2.2.1 [100000000, 200000000] (by decide),
   (cache_freshness_policy 7 3 0 960000000 false).2.2.2.1 (by decide)⟩

theorem extractCron_spec_witness :
    ∃ pre a b tail,
      ("schedule: cron: x".data) =
        pre ++ ("schedule".data) ++ a ++ ("cron".data) ++ b ++ tail ∧
      a ≠ [] ∧ (∀ x ∈ a, isClassA x = true) ∧ b ≠ [] ∧
      (∀ x ∈ b, isClassB x = true) ∧ CaptureSplit tail ("x".data) :=
  extractCron_spec.1 "schedule: cron: x" "x" (by decide)

theorem manuallyDispatchable_iff_substring_witness :
    (⟨"ci.yml", false, some "30 5 * * 1", true⟩ : WorkflowFull).manuallyDispatchable = true ↔
      ∃ pre post : List Char,
        yamlCi.data = pre ++ ("workflow_dispatch:".data) ++ post :=
  manuallyDispatchable_iff_substring summariesCi filesCi "ci.yml" yamlCi
    ⟨"ci.yml", false, some "30 5 * * 1", true⟩ (by decide) (by decide)

theorem workflow_list_fetcher_tolerant_witness :
    (getWorkflows [⟨"", "active"⟩, ⟨".github/workflows/ci.yml", "disabled"⟩]).length = 2 ∧
    (∀ i : Nat, (getWorkflows [⟨"", "active"⟩, ⟨".github/workflows/ci.yml", "disabled"⟩])[i]? =
      (([⟨"", "active"⟩, ⟨".github/workflows/ci.yml", "disabled"⟩] :
        List RawWorkflow)[i]?).map
        (fun w => ⟨jsLastSegment w.path, w.state == "active"⟩)) ∧
    jsLastSegment "" = "" ∧
    objGet (getWorkflowsDetails [⟨"", true⟩] filesCi) "" = none :=
  workflow_list_fetcher_tolerant
    [⟨"", "active"⟩, ⟨".github/workflows/ci.yml", "disabled"⟩] [⟨"", true⟩] filesCi
    (by decide)

set_option maxRecDepth 1000000 in
theorem nextDate_spec_witness :
    nowCi < nextMonCi ∧
    (matchesCron cronMon nextMonCi = true ∧
      ∀ k, nowCi < k → k < nextMonCi → matchesCron cronMon k = false) ∧
    nextDate "x" 0 = none :=
  ⟨(nextDate_spec "30 5 * * 1" nowCi).1 nextMonCi (by decide),
   ((nextDate_spec "30 5 * * 1" nowCi).2.1 cronMon (by decide)).1 nextMonCi (by decide),
   (nextDate_spec "x" 0).2.2 (by decide)⟩

theorem resolveIndicators_rules_witness :
    (resolveIndicators ⟨"ci.yml", false, some "30 5 * * 1", true⟩ nowCi).disabled = true ∧
    (resolveIndicators ⟨"ci.yml", false, some "30 5 * * 1", true⟩ nowCi).nextRun =
      nextDate "30 5 * * 1" nowCi :=
  ⟨(resolveIndicators_rules ⟨"ci.yml", false, some "30 5 * * 1", true⟩ nowCi).1.1,
   (resolveIndicators_rules ⟨"ci.yml", false, some "30 5 * * 1", true⟩ nowCi).1.2.2.2
     "30 5 * * 1" rfl (by decide)⟩

theorem definition_fetcher_files_only_witness :
    ∃ e ∈ ((some [⟨"ci.yml", GitObject.blob (some "on: push")⟩, ⟨"sub", GitObject.subdir⟩] :
        Option (List TreeEntry)).getD []),
      e.name = "ci.yml" ∧ e.obj = GitObject.blob (some "on: push") :=
  (definition_fetcher_files_only
    (some [⟨"ci.yml", GitObject.blob (some "on: push")⟩, ⟨"sub", GitObject.subdir⟩])).1
    "ci.yml" "on: push" (by decide)

theorem malformed_cron_degrades_witness :
    (⟨"bad.yml", true, some "not-a-cron", false⟩ : WorkflowFull).schedule =
      extractCron yamlBad ∧
    (resolveIndicators (⟨"bad.yml", true, some "not-a-cron", false⟩ : WorkflowFull) 0).nextRun =
      none :=
  ⟨(malformed_cron_degrades summariesBad filesBad "bad.yml" yamlBad
      ⟨"bad.yml", true, some "not-a-cron", false⟩ 0 (by decide) (by decide)).1,
   (malformed_cron_degrades summariesBad filesBad "bad.yml" yamlBad
      ⟨"bad.yml", true, some "not-a-cron", false⟩ 0 (by decide) (by decide)).2.1
     "not-a-cron" rfl (by decide)⟩

theorem aggregate_duplicate_last_wins_witness :
    (keysOf (getWorkflowsDetails summariesDup filesCi)).count "ci.yml" = 1 ∧
    ∃ w, (summariesDup.filter (fun w => w.name == "ci.yml")).getLast? = some w ∧
      w.name = "ci.yml" ∧
      objGet (getWorkflowsDetails summariesDup filesCi) "ci.yml" =
        some ⟨w.name, w.isEnabled, extractCron yamlCi, hasDispatch yamlCi⟩ :=
  aggregate_duplicate_last_wins summariesDup filesCi "ci.yml" yamlCi (by decide) (by decide)

end GhaIndicators
